import Mathlib

/-!
Shallow embedding of the room/game engine of the UntimedExplosion repository
(files `src/gameplay.rs` and `src/game.rs`), together with theorems checking
the natural-language specification against it.

Modelling conventions:
* Player ids (`u32` in the source, used only for equality) are `Nat`.
* The `HashMap<ID, Player>` is an association list `List (Nat × GamePlayer)`;
  lookups take the first matching key and `get_mut`-style updates rewrite the
  first matching entry, which coincides with hash-map behaviour because keys
  are unique in every map the program builds.
* Randomness (`Vec::shuffle`, `IteratorRandom::choose`) is a parameter: shuffles
  are functions `List α → List α`, constrained to be permutations where a
  property needs it, and the random key choice is an index parameter.
* Rust `unwrap`/`unreachable!` panics are explicit `none` / `panic` results.
-/

inductive Team where
  | sherlock
  | moriarty
deriving DecidableEq, Repr

inductive Cable where
  | safe
  | defusing
  | bomb
deriving DecidableEq, Repr

/-- A waiting player in a `Lobby` (`lobby.rs` `Player`): id, name, ready flag. -/
structure WaitingPlayer where
  id : Nat
  name : String
  ready : Bool
deriving DecidableEq, Repr

/-- A playing player in a `Game` (`game.rs` `Player`): the fields the engine
uses (`team`, `cables` = hand, `revealed_cables` = cut history). -/
structure GamePlayer where
  id : Nat
  name : String
  team : Team
  cables : List Cable
  revealed_cables : List Cable
deriving DecidableEq, Repr

/-- Source `game.rs` `PlayingPlayer::new`: fresh player with empty hand and history. -/
def GamePlayer.ofWaiting (w : WaitingPlayer) (t : Team) : GamePlayer :=
  { id := w.id, name := w.name, team := t, cables := [], revealed_cables := [] }

/-- Source `game.rs` `Player::cut_cable`: shuffle the hand, pop the last cable
(`none` models the `unwrap` panic on an empty hand), push it on
`revealed_cables`. -/
def GamePlayer.cut_cable (shuffle : List Cable → List Cable) (p : GamePlayer) :
    Option (Cable × GamePlayer) :=
  let s := shuffle p.cables
  match s.getLast? with
  | none => none
  | some c =>
      some (c, { p with cables := s.dropLast,
                        revealed_cables := p.revealed_cables ++ [c] })

/-- Source `gameplay.rs` `struct Game`. -/
structure Game where
  name : String
  players : List (Nat × GamePlayer)
  wire_cutters : Nat
  defusing_remaining : Nat
  cutted_count : Nat
deriving DecidableEq, Repr

namespace Game

/-- Source `gameplay.rs` `Game::cables_count`: `(safe, defusing, bomb)` counts. -/
def cables_count (player_count : Nat) : Nat × Nat × Nat :=
  let defusing := player_count
  let bomb := 1
  let safe := player_count * 5 - defusing - bomb
  (safe, defusing, bomb)

/-- The team list built by the `match players.len()` table in `Game::new`;
`none` models the `unreachable!` panic. -/
def teamsFor (n : Nat) : Option (List Team) :=
  if 4 ≤ n ∧ n ≤ 5 then
    some (List.replicate 3 Team.sherlock ++ List.replicate 2 Team.moriarty)
  else if n = 6 then
    some (List.replicate 4 Team.sherlock ++ List.replicate 2 Team.moriarty)
  else if 7 ≤ n ∧ n ≤ 8 then
    some (List.replicate 5 Team.sherlock ++ List.replicate 3 Team.moriarty)
  else none

/-- The cable pool built in `Game::new` from `cables_count`:
`repeated_vec![safe => Safe, defusing => Defusing, bomb => Bomb]`. -/
def cablePool (n : Nat) : List Cable :=
  let cc := cables_count n
  List.replicate cc.1 Cable.safe ++ List.replicate cc.2.1 Cable.defusing ++
    List.replicate cc.2.2 Cable.bomb

/-- The player map built in `Game::new`: the waiting players zipped with the
shuffled team list (zip truncates to the shorter side). -/
def initPlayers (ws : List WaitingPlayer) (teams : List Team) :
    List (Nat × GamePlayer) :=
  (ws.zip teams).map (fun wt => (wt.1.id, GamePlayer.ofWaiting wt.1 wt.2))

/-- The loop body of `Game::distribute_cables`: every player in iteration
order takes the last `cpp` cables (`split_off(cables.len() - cpp)`); returns
the updated players and the undistributed remainder (dropped by the caller). -/
def dealCables (cpp : Nat) :
    List (Nat × GamePlayer) → List Cable → List (Nat × GamePlayer) × List Cable
  | [], cables => ([], cables)
  | (k, p) :: rest, cables =>
      let hand := cables.drop (cables.length - cpp)
      let remaining := cables.take (cables.length - cpp)
      let r := dealCables cpp rest remaining
      ((k, { p with cables := hand }) :: r.1, r.2)

/-- Source `gameplay.rs` `Game::distribute_cables`: shuffle, then give each player
`cables.len() / players.len()` cables off the end of the vector. -/
def distribute_cables (g : Game) (shuffle : List Cable → List Cable)
    (cables : List Cable) : Game :=
  let s := shuffle cables
  let cpp := s.length / g.players.length
  { g with players := (dealCables cpp g.players s).1 }

/-- Source `gameplay.rs` `Game::new`: build the team list from the table (panicking
outside 4..=8), shuffle it, zip it with the players (zip truncates), build the
cable pool from `cables_count`, pick the wire-cutter holder among the keys
(`choose(..).unwrap()` panics on an empty map), and distribute the cables. -/
def new (name : String) (ws : List WaitingPlayer)
    (shuffleTeams : List Team → List Team)
    (shuffleCables : List Cable → List Cable)
    (pickIdx : Nat) : Option Game :=
  match teamsFor ws.length with
  | none => none
  | some teams0 =>
      let players := initPlayers ws (shuffleTeams teams0)
      let cables := cablePool players.length
      if players.length = 0 then none
      else
        let keys := players.map Prod.fst
        let wire := keys.getD (pickIdx % keys.length) 0
        let g0 : Game :=
          { name := name, players := players, wire_cutters := wire,
            defusing_remaining := (cables_count players.length).2.1,
            cutted_count := 0 }
        some (g0.distribute_cables shuffleCables cables)

end Game

inductive CutErr where
  | dontHaveWireCutter
  | cannotSelfCut
deriving DecidableEq, Repr

inductive CutOutcome where
  | win (t : Team)
  | roundEnd
  | nothing
deriving DecidableEq, Repr

/-- Result of `Game::cut`. `err` carries the game, unchanged, because the
source's error paths return before any mutation of `&mut self`; `panic`
models the two `unwrap` panics inside the success path. -/
inductive CutResult where
  | err (e : CutErr) (g : Game)
  | panic
  | ok (c : Cable) (o : CutOutcome) (g : Game)
deriving DecidableEq, Repr

namespace Game

/-- Replace the first entry whose key is `id` (the `get_mut` write-back). -/
def updateFirst : List (Nat × GamePlayer) → Nat → GamePlayer →
    List (Nat × GamePlayer)
  | [], _, _ => []
  | (k, v) :: rest, id, p' =>
      if k = id then (k, p') :: rest else (k, v) :: updateFirst rest id p'

/-- Source `gameplay.rs` `Game::cut`, translated branch for branch: token check,
self-cut check, `get_mut(..).unwrap()`, `cut_cable` (whose `pop().unwrap()`
may panic), `wire_cutters := cutted`, then the cable match and the
`defusing_remaining == 0` / `cutted_count == players.len()` checks. -/
def cut (g : Game) (shuffle : List Cable → List Cable)
    (cutting cutted : Nat) : CutResult :=
  if cutting ≠ g.wire_cutters then .err .dontHaveWireCutter g
  else if cutted = cutting then .err .cannotSelfCut g
  else
    match List.lookup cutted g.players with
    | none => .panic
    | some p =>
        match p.cut_cable shuffle with
        | none => .panic
        | some (c, p') =>
            let g1 : Game :=
              { g with players := updateFirst g.players cutted p',
                       wire_cutters := cutted }
            match c with
            | .bomb => .ok c (.win .moriarty) g1
            | .safe =>
                let g2 := { g1 with cutted_count := g1.cutted_count + 1 }
                if g2.defusing_remaining = 0 then .ok c (.win .sherlock) g2
                else if g2.cutted_count = g2.players.length then
                  .ok c .roundEnd g2
                else .ok c .nothing g2
            | .defusing =>
                let g2 := { g1 with
                  defusing_remaining := g1.defusing_remaining - 1,
                  cutted_count := g1.cutted_count + 1 }
                if g2.defusing_remaining = 0 then .ok c (.win .sherlock) g2
                else if g2.cutted_count = g2.players.length then
                  .ok c .roundEnd g2
                else .ok c .nothing g2

/-- Source `gameplay.rs` `Game::next_round`: zero the round counter, pool every
remaining hand, end the game (`true`) when the pool size equals the player
count, otherwise redistribute and return `false`. -/
def next_round (g : Game) (shuffle : List Cable → List Cable) : Bool × Game :=
  let g1 := { g with cutted_count := 0 }
  let cables : List Cable := (g1.players.map (fun kv => kv.2.cables)).flatten
  if cables.length = g1.players.length then (true, g1)
  else (false, g1.distribute_cables shuffle cables)

/-- Total number of cables currently in hands. -/
def totalHands (g : Game) : Nat :=
  (g.players.map (fun kv => kv.2.cables.length)).sum

/-- Total number of cables ever revealed (cut). -/
def totalRevealed (g : Game) : Nat :=
  (g.players.map (fun kv => kv.2.revealed_cables.length)).sum

/-- Hand plus revealed-history cable total, the conserved quantity of C3. -/
def totalCables (g : Game) : Nat :=
  (g.players.map (fun kv => kv.2.cables.length + kv.2.revealed_cables.length)).sum

/-- Number of players on team `t`. -/
def teamCount (g : Game) (t : Team) : Nat :=
  (g.players.filter (fun kv => kv.2.team = t)).length

/-- Number of copies of cable `c` across all hands. -/
def handsCount (g : Game) (c : Cable) : Nat :=
  ((g.players.map (fun kv => kv.2.cables)).flatten).count c

end Game

inductive JoinErr where
  | gameFull
  | alreadyConnected
deriving DecidableEq, Repr

/-- Source `gameplay.rs` `struct Lobby`. -/
structure Lobby where
  name : String
  players : List (Nat × WaitingPlayer)
deriving DecidableEq, Repr

namespace Lobby

/-- Source `gameplay.rs` `Lobby::add_player`: capacity check (`len() >= 8`) first,
then the duplicate-id check, then insert. -/
def add_player (l : Lobby) (p : WaitingPlayer) : Except JoinErr Lobby :=
  if 8 ≤ l.players.length then .error .gameFull
  else if (List.lookup p.id l.players).isSome then .error .alreadyConnected
  else .ok { l with players := l.players ++ [(p.id, p)] }

/-- Source `gameplay.rs` `Lobby::may_start`. -/
def may_start (l : Lobby) : Bool :=
  decide (4 ≤ l.players.length) && l.players.all (fun kv => kv.2.ready)

/-- Source `gameplay.rs` `Lobby::start`: calls `Game::new` directly, with no
re-validation of `may_start`. -/
def start (l : Lobby) (shuffleTeams : List Team → List Team)
    (shuffleCables : List Cable → List Cable) (pickIdx : Nat) : Option Game :=
  Game.new l.name (l.players.map Prod.snd) shuffleTeams shuffleCables pickIdx

end Lobby

/-- Result of the `/game/cut` route handler in `game.rs`. -/
inductive RouteCutResult where
  | badRequest (msg : String)
  | fromCut (r : CutResult)
deriving DecidableEq, Repr

/-- The `/game/cut` route (`game.rs` `fn cut`), from the point where the
caller's id has been parsed: membership check of the caller, membership check
of the target, then `Game::cut`. -/
def route_cut (g : Game) (shuffle : List Cable → List Cable)
    (callerId targetId : Nat) : RouteCutResult :=
  if (List.lookup callerId g.players).isNone then
    .badRequest "You are not part of this game"
  else if (List.lookup targetId g.players).isNone then
    .badRequest "The player you specified is not part of this game"
  else .fromCut (g.cut shuffle callerId targetId)

/-- Game states reachable through the server's protocol: a game freshly built
by `Game::new` from a lobby (whose player ids are unique), mutated by
successful cuts; a `RoundEnd` outcome is immediately followed by
`next_round`, exactly as the `/game/cut` route does, and a `Win` outcome or
a `true` return from `next_round` ends the game. All shuffles are
permutations. -/
inductive Reached : Game → Prop where
  | init (name : String) (ws : List WaitingPlayer)
      (shT : List Team → List Team) (shC : List Cable → List Cable)
      (idx : Nat) (g : Game)
      (hids : (ws.map WaitingPlayer.id).Nodup)
      (hT : ∀ l, (shT l).Perm l) (hC : ∀ l, (shC l).Perm l)
      (h : Game.new name ws shT shC idx = some g) : Reached g
  | cut_step (g g' : Game) (sh : List Cable → List Cable) (a b : Nat)
      (c : Cable) (hg : Reached g) (hsh : ∀ l, (sh l).Perm l)
      (h : g.cut sh a b = CutResult.ok c CutOutcome.nothing g') : Reached g'
  | round_step (g g' g'' : Game) (sh sh2 : List Cable → List Cable)
      (a b : Nat) (c : Cable) (hg : Reached g)
      (hsh : ∀ l, (sh l).Perm l) (hsh2 : ∀ l, (sh2 l).Perm l)
      (h : g.cut sh a b = CutResult.ok c CutOutcome.roundEnd g')
      (h2 : g'.next_round sh2 = (false, g'')) : Reached g''

/-! Concrete instances used by counterexamples and witnesses. -/

/-- Four ready waiting players, as a four-player lobby would hold them. -/
def ws4 : List WaitingPlayer :=
  [⟨0, "a", true⟩, ⟨1, "b", true⟩, ⟨2, "c", true⟩, ⟨3, "d", true⟩]

/-- The game `Game::new` builds from `ws4` with identity shuffles and pick
index 0 (computed by evaluation; checked by `rfl`-style proofs below). -/
def cg4 : Game :=
  { name := "L",
    players :=
      [(0, ⟨0, "a", Team.sherlock,
            [Cable.defusing, Cable.defusing, Cable.defusing, Cable.defusing,
             Cable.bomb], []⟩),
       (1, ⟨1, "b", Team.sherlock,
            [Cable.safe, Cable.safe, Cable.safe, Cable.safe, Cable.safe], []⟩),
       (2, ⟨2, "c", Team.sherlock,
            [Cable.safe, Cable.safe, Cable.safe, Cable.safe, Cable.safe], []⟩),
       (3, ⟨3, "d", Team.moriarty,
            [Cable.safe, Cable.safe, Cable.safe, Cable.safe, Cable.safe], []⟩)],
    wire_cutters := 0,
    defusing_remaining := 4,
    cutted_count := 0 }

/-- The game after player 0 cuts player 1 in `cg4` (one Safe cable cut). -/
def cg4b : Game :=
  { name := "L",
    players :=
      [(0, ⟨0, "a", Team.sherlock,
            [Cable.defusing, Cable.defusing, Cable.defusing, Cable.defusing,
             Cable.bomb], []⟩),
       (1, ⟨1, "b", Team.sherlock,
            [Cable.safe, Cable.safe, Cable.safe, Cable.safe], [Cable.safe]⟩),
       (2, ⟨2, "c", Team.sherlock,
            [Cable.safe, Cable.safe, Cable.safe, Cable.safe, Cable.safe], []⟩),
       (3, ⟨3, "d", Team.moriarty,
            [Cable.safe, Cable.safe, Cable.safe, Cable.safe, Cable.safe], []⟩)],
    wire_cutters := 1,
    defusing_remaining := 4,
    cutted_count := 1 }

/-- Player 1 of `cg4` (a hand of five Safe cables, nothing revealed). -/
def pB : GamePlayer :=
  ⟨1, "b", Team.sherlock,
    [Cable.safe, Cable.safe, Cable.safe, Cable.safe, Cable.safe], []⟩

/-- A four-player lobby holding the `ws4` players, all ready. -/
def l4 : Lobby :=
  { name := "L",
    players :=
      [(0, ⟨0, "a", true⟩), (1, ⟨1, "b", true⟩), (2, ⟨2, "c", true⟩),
       (3, ⟨3, "d", true⟩)] }

/-- A full lobby: eight waiting players with ids 0..7. -/
def l8 : Lobby :=
  { name := "R",
    players :=
      [(0, ⟨0, "p0", false⟩), (1, ⟨1, "p1", false⟩), (2, ⟨2, "p2", false⟩),
       (3, ⟨3, "p3", false⟩), (4, ⟨4, "p4", false⟩), (5, ⟨5, "p5", false⟩),
       (6, ⟨6, "p6", false⟩), (7, ⟨7, "p7", false⟩)] }

/-! General list helpers. -/

theorem sum_map_add {α : Type} (l : List α) (f g : α → Nat) :
    (l.map (fun x => f x + g x)).sum = (l.map f).sum + (l.map g).sum := by
  induction l with
  | nil => simp
  | cons a l ih => simp [ih]; omega

theorem map_snd_zip_eq_take {α β : Type} :
    ∀ (l1 : List α) (l2 : List β),
      (l1.zip l2).map Prod.snd = l2.take l1.length
  | [], l2 => by simp
  | _ :: _, [] => by simp
  | a :: l1, b :: l2 => by
      simp [List.zip_cons_cons, map_snd_zip_eq_take l1 l2]

theorem count_sherlock_add_count_moriarty (l : List Team) :
    l.count Team.sherlock + l.count Team.moriarty = l.length := by
  induction l with
  | nil => simp
  | cons t l ih =>
      cases t <;> simp [List.count_cons] <;> omega

/-! Lemmas about `updateFirst` (the `get_mut` write-back). -/

namespace Game

theorem updateFirst_map_fst (ps : List (Nat × GamePlayer)) (i : Nat)
    (p' : GamePlayer) : (updateFirst ps i p').map Prod.fst = ps.map Prod.fst := by
  induction ps with
  | nil => rfl
  | cons kv rest ih =>
      obtain ⟨k, v⟩ := kv
      by_cases h : k = i <;> simp [updateFirst, h, ih]

theorem updateFirst_length (ps : List (Nat × GamePlayer)) (i : Nat)
    (p' : GamePlayer) : (updateFirst ps i p').length = ps.length := by
  have := congrArg List.length (updateFirst_map_fst ps i p')
  simpa using this

theorem lookup_updateFirst_self (ps : List (Nat × GamePlayer)) (i : Nat)
    (p p' : GamePlayer) (h : List.lookup i ps = some p) :
    List.lookup i (updateFirst ps i p') = some p' := by
  induction ps with
  | nil => simp at h
  | cons kv rest ih =>
      obtain ⟨k, v⟩ := kv
      by_cases hk : k = i
      · subst hk
        simp [updateFirst, List.lookup_cons]
      · have hik : (i == k) = false := by
          simp only [beq_eq_false_iff_ne, ne_eq]
          exact fun hh => hk hh.symm
        rw [List.lookup_cons, hik] at h
        simp only [updateFirst, if_neg hk]
        rw [List.lookup_cons, hik]
        exact ih h

theorem sum_map_updateFirst (f : GamePlayer → Nat)
    (ps : List (Nat × GamePlayer)) (i : Nat) (p p' : GamePlayer)
    (h : List.lookup i ps = some p) :
    ((updateFirst ps i p').map (fun kv => f kv.2)).sum + f p
      = (ps.map (fun kv => f kv.2)).sum + f p' := by
  induction ps with
  | nil => simp at h
  | cons kv rest ih =>
      obtain ⟨k, v⟩ := kv
      by_cases hk : k = i
      · subst hk
        rw [List.lookup_cons] at h
        simp only [beq_self_eq_true] at h
        cases h
        simp [updateFirst]
        omega
      · have hik : (i == k) = false := by
          simp only [beq_eq_false_iff_ne, ne_eq]
          exact fun hh => hk hh.symm
        rw [List.lookup_cons, hik] at h
        have := ih h
        simp only [updateFirst, if_neg hk, List.map_cons, List.sum_cons]
        omega

end Game

/-! Lemmas about `cut_cable`. -/

theorem cut_cable_none_iff (sh : List Cable → List Cable) (p : GamePlayer) :
    p.cut_cable sh = none ↔ sh p.cables = [] := by
  simp only [GamePlayer.cut_cable]
  cases hl : (sh p.cables).getLast? with
  | none =>
      simpa using List.getLast?_eq_none_iff.mp hl
  | some c =>
      constructor
      · intro hc; cases hc
      · intro hc
        rw [hc] at hl
        cases hl

theorem cut_cable_some_inv (sh : List Cable → List Cable) (p p' : GamePlayer)
    (c : Cable) (h : p.cut_cable sh = some (c, p')) :
    ∃ s, sh p.cables = s ++ [c] ∧
      p' = { p with cables := s, revealed_cables := p.revealed_cables ++ [c] } := by
  simp only [GamePlayer.cut_cable] at h
  cases hl : (sh p.cables).getLast? with
  | none => rw [hl] at h; cases h
  | some c0 =>
      rw [hl] at h
      obtain ⟨s, hs⟩ := List.getLast?_eq_some_iff.mp hl
      simp only [Option.some.injEq, Prod.mk.injEq] at h
      obtain ⟨hc, hp⟩ := h
      subst hc
      refine ⟨s, hs, ?_⟩
      rw [← hp, hs]
      simp

theorem cut_cable_some_of_ne_nil (sh : List Cable → List Cable)
    (p : GamePlayer) (hsh : ∀ l, (sh l).Perm l) (hne : p.cables ≠ []) :
    ∃ c p', p.cut_cable sh = some (c, p') := by
  cases h : p.cut_cable sh with
  | none =>
      have hnil := (cut_cable_none_iff sh p).mp h
      have hperm := hsh p.cables
      rw [hnil] at hperm
      exact absurd hperm.symm.eq_nil hne
  | some cp => exact ⟨cp.1, cp.2, by simp⟩

/-! Lemmas about `dealCables` / `distribute_cables`. -/

namespace Game

theorem dealCables_map_fst (cpp : Nat) (ps : List (Nat × GamePlayer))
    (cs : List Cable) :
    ((dealCables cpp ps cs).1).map Prod.fst = ps.map Prod.fst := by
  induction ps generalizing cs with
  | nil => rfl
  | cons kv rest ih =>
      obtain ⟨k, v⟩ := kv
      simp [dealCables, ih]

theorem dealCables_map_revealed (cpp : Nat) (ps : List (Nat × GamePlayer))
    (cs : List Cable) :
    ((dealCables cpp ps cs).1).map (fun kv => kv.2.revealed_cables)
      = ps.map (fun kv => kv.2.revealed_cables) := by
  induction ps generalizing cs with
  | nil => rfl
  | cons kv rest ih =>
      obtain ⟨k, v⟩ := kv
      simp [dealCables, ih]

theorem dealCables_map_team (cpp : Nat) (ps : List (Nat × GamePlayer))
    (cs : List Cable) :
    ((dealCables cpp ps cs).1).map (fun kv => kv.2.team)
      = ps.map (fun kv => kv.2.team) := by
  induction ps generalizing cs with
  | nil => rfl
  | cons kv rest ih =>
      obtain ⟨k, v⟩ := kv
      simp [dealCables, ih]

theorem dealCables_length (cpp : Nat) (ps : List (Nat × GamePlayer))
    (cs : List Cable) : ((dealCables cpp ps cs).1).length = ps.length := by
  have := congrArg List.length (dealCables_map_fst cpp ps cs)
  simpa using this

theorem dealCables_hand_lengths (cpp : Nat) (ps : List (Nat × GamePlayer))
    (cs : List Cable) (h : cpp * ps.length ≤ cs.length) :
    ∀ kv ∈ (dealCables cpp ps cs).1, kv.2.cables.length = cpp := by
  induction ps generalizing cs with
  | nil => intro kv hkv; cases hkv
  | cons kv0 rest ih =>
      obtain ⟨k, v⟩ := kv0
      intro kv hkv
      simp only [dealCables, List.mem_cons] at hkv
      have hcpp : cpp ≤ cs.length := by
        simp only [List.length_cons] at h
        calc cpp ≤ cpp * (rest.length + 1) := by
              have : 1 ≤ rest.length + 1 := by omega
              calc cpp = cpp * 1 := by omega
                _ ≤ cpp * (rest.length + 1) := Nat.mul_le_mul_left cpp this
          _ ≤ cs.length := h
      rcases hkv with hkv | hkv
      · subst hkv
        simp [List.length_drop]
        omega
      · have hrest : cpp * rest.length ≤ (cs.take (cs.length - cpp)).length := by
          simp only [List.length_take]
          simp only [List.length_cons] at h
          have hmul : cpp * (rest.length + 1) = cpp * rest.length + cpp := by ring
          omega
        exact ih (cs.take (cs.length - cpp)) hrest kv hkv

theorem dealCables_totalHands (cpp : Nat) (ps : List (Nat × GamePlayer))
    (cs : List Cable) (h : cpp * ps.length ≤ cs.length) :
    (((dealCables cpp ps cs).1).map (fun kv => kv.2.cables.length)).sum
      = cpp * ps.length := by
  induction ps generalizing cs with
  | nil => rfl
  | cons kv0 rest ih =>
      obtain ⟨k, v⟩ := kv0
      have hcpp : cpp ≤ cs.length := by
        simp only [List.length_cons] at h
        calc cpp = cpp * 1 := by omega
          _ ≤ cpp * (rest.length + 1) := by
              exact Nat.mul_le_mul_left cpp (by omega)
          _ ≤ cs.length := h
      have hrest : cpp * rest.length ≤ (cs.take (cs.length - cpp)).length := by
        simp only [List.length_take]
        simp only [List.length_cons] at h
        have hmul : cpp * (rest.length + 1) = cpp * rest.length + cpp := by ring
        omega
      simp only [dealCables, List.map_cons, List.sum_cons,
        ih (cs.take (cs.length - cpp)) hrest, List.length_drop,
        List.length_cons]
      have : cs.length - (cs.length - cpp) = cpp := by omega
      rw [this]
      ring

theorem dealCables_leftover_length (cpp : Nat) (ps : List (Nat × GamePlayer))
    (cs : List Cable) (h : cpp * ps.length ≤ cs.length) :
    ((dealCables cpp ps cs).2).length = cs.length - cpp * ps.length := by
  induction ps generalizing cs with
  | nil => simp [dealCables]
  | cons kv0 rest ih =>
      obtain ⟨k, v⟩ := kv0
      have hcpp : cpp ≤ cs.length := by
        simp only [List.length_cons] at h
        calc cpp = cpp * 1 := by omega
          _ ≤ cpp * (rest.length + 1) := by
              exact Nat.mul_le_mul_left cpp (by omega)
          _ ≤ cs.length := h
      have hrest : cpp * rest.length ≤ (cs.take (cs.length - cpp)).length := by
        simp only [List.length_take]
        simp only [List.length_cons] at h
        have hmul : cpp * (rest.length + 1) = cpp * rest.length + cpp := by ring
        omega
      simp only [dealCables, ih (cs.take (cs.length - cpp)) hrest,
        List.length_take, List.length_cons]
      simp only [List.length_cons] at h
      have hmin : min (cs.length - cpp) cs.length = cs.length - cpp := by omega
      rw [hmin]
      have : cpp * (rest.length + 1) = cpp * rest.length + cpp := by ring
      omega

theorem dealCables_flatten_append_perm (cpp : Nat)
    (ps : List (Nat × GamePlayer)) (cs : List Cable) :
    ((((dealCables cpp ps cs).1).map (fun kv => kv.2.cables)).flatten
      ++ (dealCables cpp ps cs).2).Perm cs := by
  induction ps generalizing cs with
  | nil => simp [dealCables]
  | cons kv0 rest ih =>
      obtain ⟨k, v⟩ := kv0
      simp only [dealCables, List.map_cons, List.flatten_cons, List.append_assoc]
      have hih := ih (cs.take (cs.length - cpp))
      have h1 := List.Perm.append_left (cs.drop (cs.length - cpp)) hih
      have h2 : (cs.drop (cs.length - cpp) ++ cs.take (cs.length - cpp)).Perm cs := by
        have hc := @List.perm_append_comm Cable
          (cs.drop (cs.length - cpp)) (cs.take (cs.length - cpp))
        rwa [List.take_append_drop] at hc
      exact h1.trans h2

end Game

/-! Lemmas about `distribute_cables` and `next_round`. -/

namespace Game

theorem distribute_map_fst (g : Game) (sh : List Cable → List Cable)
    (cs : List Cable) :
    (g.distribute_cables sh cs).players.map Prod.fst = g.players.map Prod.fst := by
  simp only [distribute_cables]
  exact dealCables_map_fst _ _ _

theorem distribute_players_length (g : Game) (sh : List Cable → List Cable)
    (cs : List Cable) :
    (g.distribute_cables sh cs).players.length = g.players.length := by
  simp only [distribute_cables]
  exact dealCables_length _ _ _

theorem distribute_map_revealed (g : Game) (sh : List Cable → List Cable)
    (cs : List Cable) :
    (g.distribute_cables sh cs).players.map (fun kv => kv.2.revealed_cables)
      = g.players.map (fun kv => kv.2.revealed_cables) := by
  simp only [distribute_cables]
  exact dealCables_map_revealed _ _ _

theorem distribute_map_team (g : Game) (sh : List Cable → List Cable)
    (cs : List Cable) :
    (g.distribute_cables sh cs).players.map (fun kv => kv.2.team)
      = g.players.map (fun kv => kv.2.team) := by
  simp only [distribute_cables]
  exact dealCables_map_team _ _ _

theorem distribute_fields (g : Game) (sh : List Cable → List Cable)
    (cs : List Cable) :
    (g.distribute_cables sh cs).name = g.name ∧
    (g.distribute_cables sh cs).wire_cutters = g.wire_cutters ∧
    (g.distribute_cables sh cs).defusing_remaining = g.defusing_remaining ∧
    (g.distribute_cables sh cs).cutted_count = g.cutted_count :=
  ⟨rfl, rfl, rfl, rfl⟩

theorem distribute_hand_lengths (g : Game) (sh : List Cable → List Cable)
    (cs : List Cable) (hsh : ∀ l, (sh l).Perm l) :
    ∀ kv ∈ (g.distribute_cables sh cs).players,
      kv.2.cables.length = cs.length / g.players.length := by
  have hlen : (sh cs).length = cs.length := (hsh cs).length_eq
  simp only [distribute_cables, hlen]
  exact dealCables_hand_lengths _ _ _
    (by rw [hlen]; exact Nat.div_mul_le_self _ _)

theorem distribute_totalHands (g : Game) (sh : List Cable → List Cable)
    (cs : List Cable) (hsh : ∀ l, (sh l).Perm l) :
    (g.distribute_cables sh cs).totalHands
      = (cs.length / g.players.length) * g.players.length := by
  have hlen : (sh cs).length = cs.length := (hsh cs).length_eq
  simp only [distribute_cables, totalHands, hlen]
  exact dealCables_totalHands _ _ _
    (by rw [hlen]; exact Nat.div_mul_le_self _ _)

theorem distribute_flatten_perm (g : Game) (sh : List Cable → List Cable)
    (cs : List Cable) (hsh : ∀ l, (sh l).Perm l)
    (hdvd : g.players.length ∣ cs.length) :
    (((g.distribute_cables sh cs).players.map
      (fun kv => kv.2.cables)).flatten).Perm cs := by
  have hlen : (sh cs).length = cs.length := (hsh cs).length_eq
  have hfull : ((sh cs).length / g.players.length) * g.players.length
      = (sh cs).length := by
    rw [hlen]
    exact Nat.div_mul_cancel hdvd
  have hperm := dealCables_flatten_append_perm
    ((sh cs).length / g.players.length) g.players (sh cs)
  have hleft := dealCables_leftover_length
    ((sh cs).length / g.players.length) g.players (sh cs)
    (by rw [hfull])
  rw [hfull, Nat.sub_self] at hleft
  have hnil := List.length_eq_zero.mp hleft
  rw [hnil, List.append_nil] at hperm
  simp only [distribute_cables]
  exact hperm.trans (hsh cs)

theorem pool_length (g : Game) :
    ((g.players.map (fun kv => kv.2.cables)).flatten).length = g.totalHands := by
  simp only [totalHands, List.length_flatten, List.map_map]
  rfl

theorem next_round_true_iff (g : Game) (sh : List Cable → List Cable) :
    (g.next_round sh).1 = true ↔ g.totalHands = g.players.length := by
  simp only [next_round]
  by_cases h : ((g.players.map (fun kv => kv.2.cables)).flatten).length
      = g.players.length
  · rw [if_pos h]
    rw [pool_length g] at h
    simpa using h
  · rw [if_neg h]
    rw [pool_length g] at h
    simpa using h

theorem next_round_cutted (g : Game) (sh : List Cable → List Cable) :
    (g.next_round sh).2.cutted_count = 0 := by
  simp only [next_round]
  by_cases h : ((g.players.map (fun kv => kv.2.cables)).flatten).length
      = g.players.length
  · rw [if_pos h]
  · rw [if_neg h]
    rfl

theorem next_round_eq_true (g : Game) (sh : List Cable → List Cable)
    (h : g.totalHands = g.players.length) :
    g.next_round sh = (true, { g with cutted_count := 0 }) := by
  simp only [next_round]
  rw [if_pos]
  rw [pool_length g]
  exact h

theorem next_round_eq_false (g : Game) (sh : List Cable → List Cable)
    (h : g.totalHands ≠ g.players.length) :
    g.next_round sh = (false,
      Game.distribute_cables { g with cutted_count := 0 } sh
        ((g.players.map (fun kv => kv.2.cables)).flatten)) := by
  simp only [next_round]
  rw [if_neg]
  rw [pool_length g]
  exact h

theorem totalCables_eq (g : Game) :
    g.totalCables = g.totalHands + g.totalRevealed := by
  simp only [totalCables, totalHands, totalRevealed]
  exact sum_map_add g.players (fun kv => kv.2.cables.length)
    (fun kv => kv.2.revealed_cables.length)

end Game

/-! Inversion of a successful `cut`. -/

namespace Game

theorem cut_ok_inv (g : Game) (sh : List Cable → List Cable) (a b : Nat)
    (c : Cable) (o : CutOutcome) (g' : Game)
    (h : g.cut sh a b = CutResult.ok c o g') :
    a = g.wire_cutters ∧ b ≠ a ∧
    ∃ p s, List.lookup b g.players = some p ∧ sh p.cables = s ++ [c] ∧
      g'.players = updateFirst g.players b
        { p with cables := s, revealed_cables := p.revealed_cables ++ [c] } ∧
      g'.name = g.name ∧ g'.wire_cutters = b ∧
      ((c = Cable.bomb ∧ o = CutOutcome.win Team.moriarty ∧
          g'.defusing_remaining = g.defusing_remaining ∧
          g'.cutted_count = g.cutted_count) ∨
       (c ≠ Cable.bomb ∧ g'.cutted_count = g.cutted_count + 1 ∧
          (c = Cable.safe → g'.defusing_remaining = g.defusing_remaining) ∧
          (c = Cable.defusing →
            g'.defusing_remaining = g.defusing_remaining - 1) ∧
          (o = CutOutcome.roundEnd →
            g'.cutted_count = g'.players.length))) := by
  unfold cut at h
  by_cases h1 : a ≠ g.wire_cutters
  · rw [if_pos h1] at h; simp at h
  rw [if_neg h1] at h
  by_cases h2 : b = a
  · rw [if_pos h2] at h; simp at h
  rw [if_neg h2] at h
  refine ⟨not_not.mp h1, h2, ?_⟩
  split at h
  · simp at h
  next p hp =>
    split at h
    · simp at h
    next c0 p0 hcc =>
      obtain ⟨s, hs, hp0⟩ := cut_cable_some_inv sh p p0 c0 hcc
      subst hp0
      split at h
      · -- bomb branch
        · obtain ⟨hc, ho, hg⟩ :
              Cable.bomb = c ∧ CutOutcome.win Team.moriarty = o ∧ _ = g' := by
            simpa using h
          subst hc; subst ho; subst hg
          exact ⟨p, s, hp, hs, rfl, rfl, rfl, Or.inl ⟨rfl, rfl, rfl, rfl⟩⟩
      · -- safe branch
        · simp only [] at h
          split at h
          · obtain ⟨hc, ho, hg⟩ :
                Cable.safe = c ∧ CutOutcome.win Team.sherlock = o ∧ _ = g' := by
              simpa using h
            subst hc; subst ho; subst hg
            refine ⟨p, s, hp, hs, rfl, rfl, rfl,
              Or.inr ⟨by simp, rfl, fun _ => rfl, by simp, ?_⟩⟩
            intro hx; simp at hx
          · split at h
            · next hcond =>
                obtain ⟨hc, ho, hg⟩ :
                    Cable.safe = c ∧ CutOutcome.roundEnd = o ∧ _ = g' := by
                  simpa using h
                subst hc; subst ho; subst hg
                exact ⟨p, s, hp, hs, rfl, rfl, rfl,
                  Or.inr ⟨by simp, rfl, fun _ => rfl, by simp,
                    fun _ => hcond⟩⟩
            · obtain ⟨hc, ho, hg⟩ :
                  Cable.safe = c ∧ CutOutcome.nothing = o ∧ _ = g' := by
                simpa using h
              subst hc; subst ho; subst hg
              refine ⟨p, s, hp, hs, rfl, rfl, rfl,
                Or.inr ⟨by simp, rfl, fun _ => rfl, by simp, ?_⟩⟩
              intro hx; simp at hx
      · -- defusing branch
        · simp only [] at h
          split at h
          · obtain ⟨hc, ho, hg⟩ :
                Cable.defusing = c ∧ CutOutcome.win Team.sherlock = o ∧ _ = g' := by
              simpa using h
            subst hc; subst ho; subst hg
            refine ⟨p, s, hp, hs, rfl, rfl, rfl,
              Or.inr ⟨by simp, rfl, by simp, fun _ => rfl, ?_⟩⟩
            intro hx; simp at hx
          · split at h
            · next hcond =>
                obtain ⟨hc, ho, hg⟩ :
                    Cable.defusing = c ∧ CutOutcome.roundEnd = o ∧ _ = g' := by
                  simpa using h
                subst hc; subst ho; subst hg
                exact ⟨p, s, hp, hs, rfl, rfl, rfl,
                  Or.inr ⟨by simp, rfl, by simp, fun _ => rfl,
                    fun _ => hcond⟩⟩
            · obtain ⟨hc, ho, hg⟩ :
                  Cable.defusing = c ∧ CutOutcome.nothing = o ∧ _ = g' := by
                simpa using h
              subst hc; subst ho; subst hg
              refine ⟨p, s, hp, hs, rfl, rfl, rfl,
                Or.inr ⟨by simp, rfl, by simp, fun _ => rfl, ?_⟩⟩
              intro hx; simp at hx

end Game

namespace Game

theorem cut_ok_sums (g : Game) (sh : List Cable → List Cable) (a b : Nat)
    (c : Cable) (o : CutOutcome) (g' : Game) (hsh : ∀ l, (sh l).Perm l)
    (h : g.cut sh a b = CutResult.ok c o g') :
    g'.players.length = g.players.length ∧
    g'.totalHands + 1 = g.totalHands ∧
    g'.totalCables = g.totalCables := by
  obtain ⟨-, -, p, s, hp, hs, hpl, -, -, -⟩ := cut_ok_inv g sh a b c o g' h
  have hlen1 : s.length + 1 = p.cables.length := by
    have hx := (hsh p.cables).length_eq
    rw [hs] at hx
    simpa using hx
  refine ⟨?_, ?_, ?_⟩
  · rw [hpl, updateFirst_length]
  · have hsum := sum_map_updateFirst (fun q => q.cables.length) g.players b p
      { p with cables := s, revealed_cables := p.revealed_cables ++ [c] } hp
    simp only [] at hsum
    simp only [totalHands, hpl]
    omega
  · have hsum := sum_map_updateFirst
      (fun q => q.cables.length + q.revealed_cables.length) g.players b p
      { p with cables := s, revealed_cables := p.revealed_cables ++ [c] } hp
    simp only [] at hsum
    simp only [totalCables, hpl]
    simp only [List.length_append, List.length_cons, List.length_nil] at hsum
    omega

end Game

/-! Lemmas about `Game.new` and its ingredients. -/

namespace Game

theorem cablePool_length (n : Nat) (hn : 1 ≤ n) :
    (cablePool n).length = 5 * n := by
  simp [cablePool, cables_count]
  omega

theorem cablePool_counts (n : Nat) :
    (cablePool n).count Cable.bomb = 1 ∧
    (cablePool n).count Cable.defusing = n ∧
    (cablePool n).count Cable.safe = n * 5 - n - 1 := by
  refine ⟨?_, ?_, ?_⟩ <;>
    simp [cablePool, cables_count, List.count_append, List.count_replicate]

theorem initPlayers_length (ws : List WaitingPlayer) (ts : List Team) :
    (initPlayers ws ts).length = min ws.length ts.length := by
  simp [initPlayers]

theorem initPlayers_map_team (ws : List WaitingPlayer) (ts : List Team) :
    (initPlayers ws ts).map (fun kv => kv.2.team) = ts.take ws.length := by
  simp only [initPlayers, List.map_map]
  have : ((fun kv => kv.2.team) ∘
      fun wt : WaitingPlayer × Team => (wt.1.id, GamePlayer.ofWaiting wt.1 wt.2))
        = Prod.snd := by
    funext wt
    rfl
  rw [this]
  exact map_snd_zip_eq_take ws ts

theorem initPlayers_map_revealed (ws : List WaitingPlayer) (ts : List Team) :
    (initPlayers ws ts).map (fun kv => kv.2.revealed_cables)
      = List.replicate (initPlayers ws ts).length [] := by
  simp only [initPlayers, List.map_map, List.length_map]
  have : ((fun kv : Nat × GamePlayer => kv.2.revealed_cables) ∘
      fun wt : WaitingPlayer × Team => (wt.1.id, GamePlayer.ofWaiting wt.1 wt.2))
        = fun _ => ([] : List Cable) := by
    funext wt
    rfl
  rw [this, List.map_const']

theorem teamsFor_isSome_iff (n : Nat) :
    (teamsFor n).isSome ↔ 4 ≤ n ∧ n ≤ 8 := by
  unfold teamsFor
  by_cases h1 : 4 ≤ n ∧ n ≤ 5
  · simp [h1]; omega
  by_cases h2 : n = 6
  · simp [h1, h2]
  by_cases h3 : 7 ≤ n ∧ n ≤ 8
  · simp [h1, h2, h3]; omega
  · simp [h1, h2, h3]; omega

theorem teamsFor_spec (n : Nat) (ts : List Team)
    (h : teamsFor n = some ts) :
    (4 ≤ n ∧ n ≤ 8) ∧
    (n ≤ 5 → ts.count Team.sherlock = 3 ∧ ts.count Team.moriarty = 2 ∧
      ts.length = 5) ∧
    (n = 6 → ts.count Team.sherlock = 4 ∧ ts.count Team.moriarty = 2 ∧
      ts.length = 6) ∧
    (7 ≤ n → ts.count Team.sherlock = 5 ∧ ts.count Team.moriarty = 3 ∧
      ts.length = 8) := by
  unfold teamsFor at h
  by_cases h1 : 4 ≤ n ∧ n ≤ 5
  · rw [if_pos h1] at h
    cases h
    refine ⟨by omega, fun _ => by decide, fun h6 => by omega,
      fun h7 => by omega⟩
  rw [if_neg h1] at h
  by_cases h2 : n = 6
  · rw [if_pos h2] at h
    cases h
    refine ⟨by omega, fun h5 => by omega, fun _ => by decide,
      fun h7 => by omega⟩
  rw [if_neg h2] at h
  by_cases h3 : 7 ≤ n ∧ n ≤ 8
  · rw [if_pos h3] at h
    cases h
    refine ⟨by omega, fun h5 => by omega, fun h6 => by omega,
      fun _ => by decide⟩
  · rw [if_neg h3] at h
    cases h

theorem new_some_inv (name : String) (ws : List WaitingPlayer)
    (shT : List Team → List Team) (shC : List Cable → List Cable)
    (idx : Nat) (g : Game) (h : Game.new name ws shT shC idx = some g) :
    ∃ teams0, teamsFor ws.length = some teams0 ∧
      (initPlayers ws (shT teams0)).length ≠ 0 ∧
      g = Game.distribute_cables
        { name := name, players := initPlayers ws (shT teams0),
          wire_cutters := ((initPlayers ws (shT teams0)).map Prod.fst).getD
            (idx % ((initPlayers ws (shT teams0)).map Prod.fst).length) 0,
          defusing_remaining :=
            (cables_count (initPlayers ws (shT teams0)).length).2.1,
          cutted_count := 0 } shC
        (cablePool (initPlayers ws (shT teams0)).length) := by
  unfold new at h
  split at h
  · cases h
  next teams0 hteams =>
    simp only [] at h
    split at h
    · cases h
    next hne =>
      refine ⟨teams0, hteams, hne, ?_⟩
      simpa using h.symm

end Game

namespace Game

theorem count_map_team (l : List (Nat × GamePlayer)) (t : Team) :
    (l.map (fun kv => kv.2.team)).count t
      = (l.filter (fun kv => kv.2.team = t)).length := by
  induction l with
  | nil => rfl
  | cons kv rest ih =>
      by_cases hkv : kv.2.team = t
      · simp [List.count_cons, List.filter_cons, hkv, ih]
      · simp [List.count_cons, List.filter_cons, hkv, ih]

theorem teamCount_eq_count (g : Game) (t : Team) :
    g.teamCount t = (g.players.map (fun kv => kv.2.team)).count t := by
  rw [teamCount, count_map_team]

theorem new_props (name : String) (ws : List WaitingPlayer)
    (shT : List Team → List Team) (shC : List Cable → List Cable)
    (idx : Nat) (g : Game) (hC : ∀ l, (shC l).Perm l)
    (h : Game.new name ws shT shC idx = some g) :
    g.players.length ≠ 0 ∧ g.cutted_count = 0 ∧
    g.totalHands = 5 * g.players.length ∧
    g.totalRevealed = 0 ∧
    g.defusing_remaining = g.players.length ∧
    (∀ c : Cable, g.handsCount c = (cablePool g.players.length).count c) ∧
    g.players.map (fun kv => kv.2.team)
      = (shT ((teamsFor ws.length).getD [])).take ws.length := by
  obtain ⟨teams0, hteams, hne, hg⟩ :=
    new_some_inv name ws shT shC idx g h
  obtain ⟨g0, hG0⟩ : ∃ g0 : Game,
      Game.mk name (initPlayers ws (shT teams0))
        (((initPlayers ws (shT teams0)).map Prod.fst).getD
          (idx % ((initPlayers ws (shT teams0)).map Prod.fst).length) 0)
        ((cables_count (initPlayers ws (shT teams0)).length).2.1)
        0 = g0 := ⟨_, rfl⟩
  rw [hG0] at hg
  have hg0p : g0.players = initPlayers ws (shT teams0) := by rw [← hG0]
  have hg0c : g0.cutted_count = 0 := by rw [← hG0]
  have hg0d : g0.defusing_remaining
      = (cables_count (initPlayers ws (shT teams0)).length).2.1 := by
    rw [← hG0]
  have hlen : g.players.length = (initPlayers ws (shT teams0)).length := by
    rw [hg, distribute_players_length, hg0p]
  have hne' : (initPlayers ws (shT teams0)).length ≠ 0 := by
    intro hx
    exact hne (by omega)
  have hn1 : 1 ≤ (initPlayers ws (shT teams0)).length := by omega
  have hpool : (cablePool (initPlayers ws (shT teams0)).length).length
      = 5 * (initPlayers ws (shT teams0)).length :=
    cablePool_length _ hn1
  refine ⟨by omega, ?_, ?_, ?_, ?_, ?_, ?_⟩
  · rw [hg]
    rw [(distribute_fields _ _ _).2.2.2, hg0c]
  · rw [hg, distribute_totalHands _ _ _ hC, hg0p, hpool,
      Nat.mul_div_cancel 5 (by omega), distribute_players_length, hg0p]
  · rw [totalRevealed]
    have hmapeq : g.players.map (fun kv => kv.2.revealed_cables)
        = List.replicate (initPlayers ws (shT teams0)).length [] := by
      rw [hg, distribute_map_revealed, hg0p, initPlayers_map_revealed]
    have hcomp : g.players.map (fun kv => kv.2.revealed_cables.length)
        = (g.players.map (fun kv => kv.2.revealed_cables)).map
            List.length := by
      rw [List.map_map]
      rfl
    rw [hcomp, hmapeq]
    simp
  · rw [hg, (distribute_fields _ _ _).2.2.1, hg0d]
    simp only [cables_count]
    rw [distribute_players_length, hg0p]
  · intro c
    have hdvd : g0.players.length ∣
        (cablePool (initPlayers ws (shT teams0)).length).length := by
      rw [hpool, hg0p]
      exact dvd_mul_left _ _
    have hperm := distribute_flatten_perm g0 shC
      (cablePool (initPlayers ws (shT teams0)).length) hC hdvd
    rw [handsCount, hlen]
    rw [hg]
    exact hperm.count_eq c
  · rw [hg, distribute_map_team, hg0p, initPlayers_map_team, hteams]
    rfl

end Game

/-! The round-trip divisibility invariant over reachable states. -/

theorem reached_dvd (g : Game) (hg : Reached g) :
    g.players.length ∣ g.totalHands + g.cutted_count := by
  induction hg with
  | init name ws shT shC idx g hids hT hC h =>
      obtain ⟨hne, hc0, hth, -, -, -, -⟩ :=
        Game.new_props name ws shT shC idx g hC h
      rw [hc0, hth, Nat.add_zero]
      exact dvd_mul_left _ _
  | cut_step g g' sh a b c hg hsh h ih =>
      obtain ⟨hlen, hth, -⟩ := Game.cut_ok_sums g sh a b c _ g' hsh h
      obtain ⟨-, -, p, s, -, -, -, -, -, hor⟩ :=
        Game.cut_ok_inv g sh a b c _ g' h
      rcases hor with ⟨-, ho, -, -⟩ | ⟨-, hcut, -, -, -⟩
      · simp at ho
      · rw [hlen]
        have heq : g'.totalHands + g'.cutted_count
            = g.totalHands + g.cutted_count := by omega
        rw [heq]
        exact ih
  | round_step g g' g'' sh sh2 a b c hg hsh hsh2 h h2 ih =>
      obtain ⟨hlen, hth, -⟩ := Game.cut_ok_sums g sh a b c _ g' hsh h
      obtain ⟨-, -, p, s, -, -, -, -, -, hor⟩ :=
        Game.cut_ok_inv g sh a b c _ g' h
      rcases hor with ⟨-, ho, -, -⟩ | ⟨-, hcut, -, -, hre⟩
      · simp at ho
      have hre' : g'.cutted_count = g'.players.length := hre rfl
      have hneq : g'.totalHands ≠ g'.players.length := by
        intro hx
        have hx2 := Game.next_round_eq_true g' sh2 hx
        rw [hx2] at h2
        simp at h2
      have hfalse := Game.next_round_eq_false g' sh2 hneq
      rw [hfalse] at h2
      have hG2 : g'' = Game.distribute_cables { g' with cutted_count := 0 } sh2
          ((g'.players.map (fun kv => kv.2.cables)).flatten) := by
        have hx := congrArg Prod.snd h2
        simpa using hx.symm
      have hdvd : g'.players.length ∣ g'.totalHands := by
        have heq : g.totalHands + g.cutted_count
            = g'.totalHands + g'.players.length := by omega
        rw [heq, ← hlen] at ih
        have hx := Nat.dvd_sub' ih (dvd_refl g'.players.length)
        simpa using hx
      have hq : (Game.mk g'.name g'.players g'.wire_cutters
          g'.defusing_remaining 0).players.length = g'.players.length := rfl
      have hplen : g''.players.length = g'.players.length := by
        rw [hG2, Game.distribute_players_length]
      have hth'' : g''.totalHands = g'.totalHands := by
        rw [hG2, Game.distribute_totalHands _ _ _ hsh2, Game.pool_length]
        exact Nat.div_mul_cancel hdvd
      have hc'' : g''.cutted_count = 0 := by
        rw [hG2]
        exact (Game.distribute_fields _ _ _).2.2.2
      rw [hplen, hth'', hc'', Nat.add_zero]
      exact hdvd

namespace Game

theorem cut_err_inv (g g2 : Game) (sh : List Cable → List Cable) (a b : Nat)
    (e : CutErr) (h : g.cut sh a b = CutResult.err e g2) :
    g2 = g ∧
    ((e = CutErr.dontHaveWireCutter ∧ a ≠ g.wire_cutters) ∨
     (e = CutErr.cannotSelfCut ∧ a = g.wire_cutters ∧ b = a)) := by
  unfold cut at h
  by_cases h1 : a ≠ g.wire_cutters
  · rw [if_pos h1] at h
    obtain ⟨he, hg⟩ : CutErr.dontHaveWireCutter = e ∧ g = g2 := by
      simpa using h
    exact ⟨hg.symm, Or.inl ⟨he.symm, h1⟩⟩
  rw [if_neg h1] at h
  by_cases h2 : b = a
  · rw [if_pos h2] at h
    obtain ⟨he, hg⟩ : CutErr.cannotSelfCut = e ∧ g = g2 := by
      simpa using h
    exact ⟨hg.symm, Or.inr ⟨he.symm, not_not.mp h1, h2⟩⟩
  rw [if_neg h2] at h
  exfalso
  split at h
  · simp at h
  · split at h
    · simp at h
    · split at h
      · simp at h
      · simp only [] at h
        split at h
        · simp at h
        · split at h <;> simp at h
      · simp only [] at h
        split at h
        · simp at h
        · split at h <;> simp at h

theorem cut_panic_inv (g : Game) (sh : List Cable → List Cable) (a b : Nat)
    (h : g.cut sh a b = CutResult.panic) :
    a = g.wire_cutters ∧ b ≠ a ∧
    (List.lookup b g.players = none ∨
      ∃ p, List.lookup b g.players = some p ∧ sh p.cables = []) := by
  unfold cut at h
  by_cases h1 : a ≠ g.wire_cutters
  · rw [if_pos h1] at h; simp at h
  rw [if_neg h1] at h
  by_cases h2 : b = a
  · rw [if_pos h2] at h; simp at h
  rw [if_neg h2] at h
  refine ⟨not_not.mp h1, h2, ?_⟩
  split at h
  next hp => exact Or.inl hp
  next p hp =>
    split at h
    next hcc =>
      exact Or.inr ⟨p, hp, (cut_cable_none_iff sh p).mp hcc⟩
    next c0 p0 hcc =>
      exfalso
      split at h
      · simp at h
      · simp only [] at h
        split at h
        · simp at h
        · split at h <;> simp at h
      · simp only [] at h
        split at h
        · simp at h
        · split at h <;> simp at h

end Game

namespace Game

theorem distribute_totalRevealed (g : Game) (sh : List Cable → List Cable)
    (cs : List Cable) :
    (g.distribute_cables sh cs).totalRevealed = g.totalRevealed := by
  have h1 : ∀ gg : Game,
      gg.players.map (fun kv => kv.2.revealed_cables.length)
        = (gg.players.map (fun kv => kv.2.revealed_cables)).map
            List.length := by
    intro gg
    rw [List.map_map]
    rfl
  rw [totalRevealed, totalRevealed, h1, h1, distribute_map_revealed]

theorem cut_succeeds (g : Game) (sh : List Cable → List Cable) (t : Nat)
    (p : GamePlayer) (hsh : ∀ l, (sh l).Perm l) (ht : t ≠ g.wire_cutters)
    (hp : List.lookup t g.players = some p) (hne : p.cables ≠ []) :
    ∃ c o g', g.cut sh g.wire_cutters t = CutResult.ok c o g' := by
  cases hres : g.cut sh g.wire_cutters t with
  | err e g2 =>
      obtain ⟨-, hor⟩ := cut_err_inv g g2 sh _ t e hres
      rcases hor with ⟨-, hne'⟩ | ⟨-, -, hba⟩
      · exact absurd rfl hne'
      · exact absurd hba ht
  | panic =>
      obtain ⟨-, -, hor⟩ := cut_panic_inv g sh _ t hres
      rcases hor with hnone | ⟨q, hq, hqe⟩
      · rw [hp] at hnone; cases hnone
      · rw [hp] at hq
        injection hq with hq
        subst hq
        have hperm := hsh p.cables
        rw [hqe] at hperm
        exact absurd hperm.symm.eq_nil hne
  | ok c o g' => exact ⟨c, o, g', rfl⟩

theorem round_conserves (g g' g'' : Game) (sh sh2 : List Cable → List Cable)
    (a b : Nat) (c : Cable)
    (hinv : g.players.length ∣ g.totalHands + g.cutted_count)
    (hsh : ∀ l, (sh l).Perm l) (hsh2 : ∀ l, (sh2 l).Perm l)
    (h : g.cut sh a b = CutResult.ok c CutOutcome.roundEnd g')
    (h2 : g'.next_round sh2 = (false, g'')) :
    g''.totalHands = g'.totalHands ∧
    g'.totalHands + g'.players.length = g.totalHands + g.cutted_count := by
  obtain ⟨hlen, hth, -⟩ := cut_ok_sums g sh a b c _ g' hsh h
  obtain ⟨-, -, p, s, -, -, -, -, -, hor⟩ := cut_ok_inv g sh a b c _ g' h
  rcases hor with ⟨-, ho, -, -⟩ | ⟨-, hcut, -, -, hre⟩
  · simp at ho
  have hre' : g'.cutted_count = g'.players.length := hre rfl
  have hsum : g'.totalHands + g'.players.length
      = g.totalHands + g.cutted_count := by omega
  refine ⟨?_, hsum⟩
  have hneq : g'.totalHands ≠ g'.players.length := by
    intro hx
    have hx2 := next_round_eq_true g' sh2 hx
    rw [hx2] at h2
    simp at h2
  have hfalse := next_round_eq_false g' sh2 hneq
  rw [hfalse] at h2
  have hG2 : g'' = Game.distribute_cables { g' with cutted_count := 0 } sh2
      ((g'.players.map (fun kv => kv.2.cables)).flatten) := by
    have hx := congrArg Prod.snd h2
    simpa using hx.symm
  have hdvd : g'.players.length ∣ g'.totalHands := by
    rw [hsum.symm, ← hlen] at hinv
    have hx := Nat.dvd_sub' hinv (dvd_refl g'.players.length)
    simpa using hx
  rw [hG2, distribute_totalHands _ _ _ hsh2, pool_length]
  exact Nat.div_mul_cancel hdvd

end Game

/-! The claims. -/

/-- C1: whenever `t` differs from the wire-cutter holder `h`, is present in
the player map and has a non-empty hand, `cut(h, t)` succeeds; it removes one
cable of `t`'s hand (shuffle-then-pop: the popped cable is a member of the
hand and the remaining hand plus the popped cable is a permutation of the old
hand, so the cutter does not choose the wire), appends that cable to `t`'s
revealed history, sets the wire-cutter holder to `t`, and when the removed
cable is the Bomb it returns `Win(Moriarty)` immediately with
`cutted_count` and `defusing_remaining` untouched. -/
theorem claim_C1 (g : Game) (sh : List Cable → List Cable) (t : Nat)
    (p : GamePlayer) (hsh : ∀ l, (sh l).Perm l)
    (ht : t ≠ g.wire_cutters) (hp : List.lookup t g.players = some p)
    (hne : p.cables ≠ []) :
    ∃ c o g' p', g.cut sh g.wire_cutters t = CutResult.ok c o g' ∧
      c ∈ p.cables ∧
      List.lookup t g'.players = some p' ∧
      (p'.cables ++ [c]).Perm p.cables ∧
      p'.revealed_cables = p.revealed_cables ++ [c] ∧
      g'.wire_cutters = t ∧
      (c = Cable.bomb → o = CutOutcome.win Team.moriarty ∧
        g'.cutted_count = g.cutted_count ∧
        g'.defusing_remaining = g.defusing_remaining) := by
  obtain ⟨c, o, g', hres⟩ := Game.cut_succeeds g sh t p hsh ht hp hne
  obtain ⟨-, -, q, s, hq, hs, hpl, -, hw, hor⟩ :=
    Game.cut_ok_inv g sh _ t c o g' hres
  rw [hp] at hq
  injection hq with hq
  subst hq
  refine ⟨c, o, g',
    { p with cables := s, revealed_cables := p.revealed_cables ++ [c] },
    hres, ?_, ?_, ?_, rfl, hw, ?_⟩
  · have hmem : c ∈ sh p.cables := by
      rw [hs]
      simp
    exact (hsh p.cables).mem_iff.mp hmem
  · rw [hpl]
    exact Game.lookup_updateFirst_self g.players t p _ hp
  · have hperm := hsh p.cables
    rw [hs] at hperm
    exact hperm
  · intro hc
    subst hc
    rcases hor with ⟨-, ho, hd, hcnt⟩ | ⟨hnb, -, -, -, -⟩
    · exact ⟨ho, hcnt, hd⟩
    · exact absurd rfl hnb

/-- Witness for C1 at the concrete game `cg4`, target player 1. -/
theorem claim_C1_witness :
    (1 : Nat) ≠ cg4.wire_cutters ∧
    List.lookup 1 cg4.players = some pB ∧ pB.cables ≠ [] ∧
    (∃ c o g' p', cg4.cut id cg4.wire_cutters 1 = CutResult.ok c o g' ∧
      c ∈ pB.cables ∧
      List.lookup 1 g'.players = some p' ∧
      (p'.cables ++ [c]).Perm pB.cables ∧
      p'.revealed_cables = pB.revealed_cables ++ [c] ∧
      g'.wire_cutters = 1 ∧
      (c = Cable.bomb → o = CutOutcome.win Team.moriarty ∧
        g'.cutted_count = cg4.cutted_count ∧
        g'.defusing_remaining = cg4.defusing_remaining)) :=
  ⟨by decide, by decide, by decide,
    claim_C1 cg4 id 1 pB (fun l => List.Perm.refl l) (by decide) (by decide)
      (by decide)⟩

/-- C2 as stated is false: with four players (and the identity permutation as
the team shuffle) `Game::new` zips the five-card role list `[S,S,S,M,M]` with
only four players, so the dealt teams are 3 Sherlock vs 1 Moriarty, not the
3 vs 2 of the table; the discarded role card makes the exact table sizes
unreachable for 4 (and 7) players. -/
theorem claim_C2_counterexample :
    (∀ l : List Team, (id l).Perm l) ∧
    (∀ l : List Cable, (id l).Perm l) ∧
    ws4.length = 4 ∧
    Game.new "L" ws4 id id 0 = some cg4 ∧
    cg4.teamCount Team.sherlock = 3 ∧
    cg4.teamCount Team.moriarty = 1 ∧
    ¬(cg4.teamCount Team.sherlock = 3 ∧ cg4.teamCount Team.moriarty = 2) :=
  ⟨fun l => List.Perm.refl l, fun l => List.Perm.refl l, by decide, by decide,
    by decide, by decide, by decide⟩

/-- C2 amended: for `n ∈ [4,8]` players, `Game::new` deals the first `n`
entries of the shuffled table list, so the dealt team sizes sum to `n`, are
bounded by the table's sizes, and equal them exactly when the table list has
exactly `n` entries — which happens precisely for `n ∈ {5,6,8}`; the cable
pool part of the claim holds for every `n`: the hands together hold exactly
`n×5` cables with exactly one Bomb, `n` Defusing and `n×5 − n − 1` Safe. -/
theorem claim_C2_amended (n : Nat) (name : String) (ws : List WaitingPlayer)
    (shT : List Team → List Team) (shC : List Cable → List Cable) (idx : Nat)
    (g : Game) (hn : ws.length = n) (h4 : 4 ≤ n) (h8 : n ≤ 8)
    (hT : ∀ l, (shT l).Perm l) (hC : ∀ l, (shC l).Perm l)
    (h : Game.new name ws shT shC idx = some g) :
    g.players.length = n ∧
    g.teamCount Team.sherlock + g.teamCount Team.moriarty = n ∧
    (∀ ts, Game.teamsFor n = some ts →
      g.teamCount Team.sherlock ≤ ts.count Team.sherlock ∧
      g.teamCount Team.moriarty ≤ ts.count Team.moriarty ∧
      (ts.length = n →
        g.teamCount Team.sherlock = ts.count Team.sherlock ∧
        g.teamCount Team.moriarty = ts.count Team.moriarty)) ∧
    ((n = 5 ∨ n = 6 ∨ n = 8) →
      ∀ ts, Game.teamsFor n = some ts → ts.length = n) ∧
    g.totalHands = 5 * n ∧
    g.handsCount Cable.bomb = 1 ∧
    g.handsCount Cable.defusing = n ∧
    g.handsCount Cable.safe = 5 * n - n - 1 := by
  obtain ⟨hne, -, hth, -, -, hcnt, hteam⟩ :=
    Game.new_props name ws shT shC idx g hC h
  obtain ⟨ts0, hts0⟩ := Option.isSome_iff_exists.mp
    ((Game.teamsFor_isSome_iff n).mpr ⟨h4, h8⟩)
  rw [hn, hts0] at hteam
  simp only [Option.getD_some] at hteam
  obtain ⟨⟨-, -⟩, hsp⟩ := Game.teamsFor_spec n ts0 hts0
  have hts0len : 4 ≤ ts0.length ∧ n ≤ ts0.length := by
    by_cases h5 : n ≤ 5
    · have := (hsp.1 h5).2.2
      omega
    by_cases h6 : n = 6
    · have := (hsp.2.1 h6).2.2
      omega
    · have := (hsp.2.2 (by omega)).2.2
      omega
  have hshlen : (shT ts0).length = ts0.length := (hT ts0).length_eq
  have hplen : g.players.length = n := by
    have hx := congrArg List.length hteam
    simp only [List.length_map, List.length_take, hshlen] at hx
    omega
  have hteamlen : (g.players.map (fun kv => kv.2.team)).length = n := by
    rw [List.length_map, hplen]
  refine ⟨hplen, ?_, ?_, ?_, ?_, ?_, ?_, ?_⟩
  · rw [Game.teamCount_eq_count, Game.teamCount_eq_count]
    rw [count_sherlock_add_count_moriarty]
    exact hteamlen
  · intro ts hts
    rw [hts0] at hts
    injection hts with hts
    subst hts
    have hbound : ∀ t : Team,
        (g.players.map (fun kv => kv.2.team)).count t ≤ ts0.count t := by
      intro t
      rw [hteam]
      calc ((shT ts0).take n).count t ≤ (shT ts0).count t :=
            (List.take_sublist n (shT ts0)).count_le t
        _ = ts0.count t := (hT ts0).count_eq t
    refine ⟨by rw [Game.teamCount_eq_count]; exact hbound Team.sherlock,
      by rw [Game.teamCount_eq_count]; exact hbound Team.moriarty, ?_⟩
    intro hlen
    have htake : (shT ts0).take n = shT ts0 := by
      have : n = (shT ts0).length := by omega
      rw [this]
      exact List.take_length (shT ts0)
    constructor
    · rw [Game.teamCount_eq_count, hteam, htake]
      exact (hT ts0).count_eq Team.sherlock
    · rw [Game.teamCount_eq_count, hteam, htake]
      exact (hT ts0).count_eq Team.moriarty
  · intro hcase ts hts
    rw [hts0] at hts
    injection hts with hts
    subst hts
    rcases hcase with h5 | h6 | h8'
    · exact (hsp.1 (by omega)).2.2.trans h5.symm
    · exact (hsp.2.1 h6).2.2.trans h6.symm
    · exact (hsp.2.2 (by omega)).2.2.trans h8'.symm
  · rw [hth, hplen]
  · rw [hcnt, hplen]
    exact (Game.cablePool_counts n).1
  · rw [hcnt, hplen]
    exact (Game.cablePool_counts n).2.1
  · rw [hcnt, hplen]
    rw [(Game.cablePool_counts n).2.2]
    rw [Nat.mul_comm]

/-- Witness for the amended C2 at the 4-player lobby `ws4`. -/
theorem claim_C2_amended_witness :
    cg4.players.length = 4 ∧
    cg4.teamCount Team.sherlock + cg4.teamCount Team.moriarty = 4 ∧
    cg4.totalHands = 5 * 4 ∧
    cg4.handsCount Cable.bomb = 1 ∧
    cg4.handsCount Cable.defusing = 4 ∧
    cg4.handsCount Cable.safe = 5 * 4 - 4 - 1 := by
  have hx := claim_C2_amended 4 "L" ws4 id id 0 cg4 (by decide) (by decide)
    (by decide) (fun l => List.Perm.refl l) (fun l => List.Perm.refl l)
    (by decide)
  exact ⟨hx.1, hx.2.1, hx.2.2.2.2.1, hx.2.2.2.2.2.1, hx.2.2.2.2.2.2.1,
    hx.2.2.2.2.2.2.2⟩

/-- C3 as stated is false: the claim quantifies over every sequence of
successful `cut` and `next_round` operations, but calling `next_round`
mid-round (here after a single cut from a fresh 4-player game, pool of 19
cables) makes `distribute_cables` hand out `4 × (19 / 4) = 16` cables and
silently drop the remaining 3, shrinking the hand-plus-history total from 20
to 17. -/
theorem claim_C3_counterexample :
    (∀ l : List Cable, (id l).Perm l) ∧
    Game.new "L" ws4 id id 0 = some cg4 ∧
    cg4.totalCables = 20 ∧
    cg4.cut id 0 1 = CutResult.ok Cable.safe CutOutcome.nothing cg4b ∧
    (cg4b.next_round id).2.totalCables = 17 ∧
    (17 : Nat) ≠ 20 :=
  ⟨fun l => List.Perm.refl l, by decide, by decide, by decide, by decide,
    by decide⟩

/-- C3 amended: every successful cut conserves the hand-plus-history total
(it moves exactly one cable from a hand to a revealed history), and
`next_round` conserves it whenever the pooled hand total is a multiple of the
player count — which is the case whenever `next_round` is invoked at a round
end, as the server does; an out-of-protocol `next_round` call can drop up to
`|players| − 1` cables. -/
theorem claim_C3_amended :
    (∀ (g : Game) (sh : List Cable → List Cable) (a b : Nat) (c : Cable)
      (o : CutOutcome) (g' : Game), (∀ l, (sh l).Perm l) →
      g.cut sh a b = CutResult.ok c o g' →
      g'.totalCables = g.totalCables) ∧
    (∀ (g : Game) (sh : List Cable → List Cable) (r : Bool × Game),
      (∀ l, (sh l).Perm l) → g.players.length ∣ g.totalHands →
      g.next_round sh = r → r.2.totalCables = g.totalCables) := by
  constructor
  · intro g sh a b c o g' hsh h
    exact (Game.cut_ok_sums g sh a b c o g' hsh h).2.2
  · intro g sh r hsh hdvd hr
    by_cases h : g.totalHands = g.players.length
    · rw [Game.next_round_eq_true g sh h] at hr
      rw [← hr]
      rfl
    · rw [Game.next_round_eq_false g sh h] at hr
      rw [← hr]
      rw [Game.totalCables_eq, Game.totalCables_eq,
        Game.distribute_totalRevealed,
        Game.distribute_totalHands _ _ _ hsh, Game.pool_length]
      have hq : (Game.mk g.name g.players g.wire_cutters
          g.defusing_remaining 0).players.length = g.players.length := rfl
      rw [Nat.div_mul_cancel hdvd]
      rfl

/-- Witness for the amended C3: the cut 0→1 in `cg4` and a round-end style
redistribution (pool 20, 4 players, divisible) both conserve the total. -/
theorem claim_C3_amended_witness :
    cg4b.totalCables = cg4.totalCables ∧
    (cg4.next_round id).2.totalCables = cg4.totalCables :=
  ⟨claim_C3_amended.1 cg4 id 0 1 Cable.safe CutOutcome.nothing cg4b
      (fun l => List.Perm.refl l) (by decide),
   claim_C3_amended.2 cg4 id (cg4.next_round id) (fun l => List.Perm.refl l)
      (by decide) rfl⟩

/-- C4: `next_round` always leaves `cutted_count = 0`; it returns `true` if
and only if the pooled hand total equals the player count (hands untouched in
that case), and otherwise redistributes the reshuffled pool evenly — every
player receives exactly `pool / |players|` cables — and returns `false`. -/
theorem claim_C4 (g : Game) (sh : List Cable → List Cable)
    (hsh : ∀ l, (sh l).Perm l) :
    (g.next_round sh).2.cutted_count = 0 ∧
    ((g.next_round sh).1 = true ↔ g.totalHands = g.players.length) ∧
    ((g.next_round sh).1 = true → (g.next_round sh).2.players = g.players) ∧
    ((g.next_round sh).1 = false →
      (g.next_round sh).2.players.map Prod.fst = g.players.map Prod.fst ∧
      ∀ kv ∈ (g.next_round sh).2.players,
        kv.2.cables.length = g.totalHands / g.players.length) := by
  refine ⟨Game.next_round_cutted g sh, Game.next_round_true_iff g sh, ?_, ?_⟩
  · intro htrue
    have h := (Game.next_round_true_iff g sh).mp htrue
    rw [Game.next_round_eq_true g sh h]
  · intro hfalse
    have h : ¬g.totalHands = g.players.length := by
      intro hx
      rw [(Game.next_round_true_iff g sh).mpr hx] at hfalse
      cases hfalse
    rw [Game.next_round_eq_false g sh h]
    constructor
    · rw [Game.distribute_map_fst]
    · intro kv hkv
      have hx := Game.distribute_hand_lengths
        (Game.mk g.name g.players g.wire_cutters g.defusing_remaining 0) sh
        ((g.players.map (fun kv => kv.2.cables)).flatten) hsh kv hkv
      rw [Game.pool_length] at hx
      exact hx

/-- Witness for C4 at the concrete game `cg4` with the identity shuffle. -/
theorem claim_C4_witness :
    (cg4.next_round id).2.cutted_count = 0 ∧
    ((cg4.next_round id).1 = true ↔ cg4.totalHands = cg4.players.length) ∧
    ((cg4.next_round id).1 = true →
      (cg4.next_round id).2.players = cg4.players) ∧
    ((cg4.next_round id).1 = false →
      (cg4.next_round id).2.players.map Prod.fst
        = cg4.players.map Prod.fst ∧
      ∀ kv ∈ (cg4.next_round id).2.players,
        kv.2.cables.length = cg4.totalHands / cg4.players.length) :=
  claim_C4 cg4 id (fun l => List.Perm.refl l)

/-- C5 as stated is false: when `x` does not hold the wire-cutter token,
`cut(x, x)` fails with `DontHaveWireCutter`, not `CannotSelfCut` — the token
check precedes the self-cut check in `Game::cut`. -/
theorem claim_C5_counterexample :
    (1 : Nat) ≠ cg4.wire_cutters ∧
    cg4.cut id 1 1 = CutResult.err CutErr.dontHaveWireCutter cg4 ∧
    CutResult.err CutErr.dontHaveWireCutter cg4 ≠
      CutResult.err CutErr.cannotSelfCut cg4 :=
  ⟨by decide, by decide, by decide⟩

/-- C5 amended: `cut(x, x)` always fails, with `CannotSelfCut` when `x`
holds the wire-cutter token and with `DontHaveWireCutter` otherwise (as does
any cut by a non-holder); in every failure case the returned game state is
the unchanged input state. -/
theorem claim_C5_amended (g : Game) (sh : List Cable → List Cable)
    (x y : Nat) :
    (x = g.wire_cutters →
      g.cut sh x x = CutResult.err CutErr.cannotSelfCut g) ∧
    (x ≠ g.wire_cutters →
      g.cut sh x y = CutResult.err CutErr.dontHaveWireCutter g) := by
  constructor
  · intro hx
    unfold Game.cut
    rw [if_neg (by simp [hx]), if_pos rfl]
  · intro hx
    unfold Game.cut
    rw [if_pos hx]

/-- Witness for the amended C5 at `cg4` (holder 0 self-cuts; non-holder 1
cuts 2). -/
theorem claim_C5_amended_witness :
    cg4.cut id 0 0 = CutResult.err CutErr.cannotSelfCut cg4 ∧
    cg4.cut id 1 2 = CutResult.err CutErr.dontHaveWireCutter cg4 :=
  ⟨(claim_C5_amended cg4 id 0 0).1 (by decide),
   (claim_C5_amended cg4 id 1 2).2 (by decide)⟩

/-- C6 as stated is false: a successful cut of a Safe cable leaves
`defusing_remaining` unchanged while the game goes on (outcome `Nothing`),
so the counter is not strictly decreasing across successful cuts. -/
theorem claim_C6_counterexample :
    cg4.cut id 0 1 = CutResult.ok Cable.safe CutOutcome.nothing cg4b ∧
    cg4b.defusing_remaining = cg4.defusing_remaining :=
  ⟨by decide, by decide⟩

/-- C6 amended: `defusing_remaining` is non-increasing across successful
cuts; it decrements by exactly one when the cut cable is Defusing, and is
unchanged when the cut cable is Safe or the Bomb. -/
theorem claim_C6_amended (g : Game) (sh : List Cable → List Cable)
    (a b : Nat) (c : Cable) (o : CutOutcome) (g' : Game)
    (h : g.cut sh a b = CutResult.ok c o g') :
    g'.defusing_remaining ≤ g.defusing_remaining ∧
    (c = Cable.defusing →
      g'.defusing_remaining = g.defusing_remaining - 1) ∧
    (c ≠ Cable.defusing →
      g'.defusing_remaining = g.defusing_remaining) := by
  obtain ⟨-, -, p, s, -, -, -, -, -, hor⟩ :=
    Game.cut_ok_inv g sh a b c o g' h
  rcases hor with ⟨hcb, -, hd, -⟩ | ⟨hnb, -, hsafe, hdef, -⟩
  · subst hcb
    exact ⟨le_of_eq hd, fun hx => absurd hx (by decide), fun _ => hd⟩
  · cases c with
    | bomb => exact absurd rfl hnb
    | safe =>
        have hd := hsafe rfl
        exact ⟨le_of_eq hd, fun hx => absurd hx (by decide), fun _ => hd⟩
    | defusing =>
        have hd := hdef rfl
        refine ⟨?_, fun _ => hd, fun hx => absurd rfl hx⟩
        rw [hd]
        exact Nat.sub_le _ _

/-- Witness for the amended C6 at the Safe cut 0→1 in `cg4`. -/
theorem claim_C6_amended_witness :
    cg4b.defusing_remaining ≤ cg4.defusing_remaining ∧
    (Cable.safe = Cable.defusing →
      cg4b.defusing_remaining = cg4.defusing_remaining - 1) ∧
    (Cable.safe ≠ Cable.defusing →
      cg4b.defusing_remaining = cg4.defusing_remaining) :=
  claim_C6_amended cg4 id 0 1 Cable.safe CutOutcome.nothing cg4b (by decide)

/-- C7: in every reachable game state the player count divides the hand
total plus the round counter, so at every distribution point (round counter
zero: the initial deal and the state after every redistribution) the hand
total is an exact multiple of the player count; moreover at a protocol-level
round end the redistribution drops no cables, and the completed round
removed exactly `|players|` cables from the distribution-point total. -/
theorem claim_C7 (g : Game) (hg : Reached g) :
    g.players.length ∣ g.totalHands + g.cutted_count ∧
    (g.cutted_count = 0 → g.players.length ∣ g.totalHands) ∧
    (∀ (sh sh2 : List Cable → List Cable) (a b : Nat) (c : Cable)
      (g' g'' : Game), (∀ l, (sh l).Perm l) → (∀ l, (sh2 l).Perm l) →
      g.cut sh a b = CutResult.ok c CutOutcome.roundEnd g' →
      g'.next_round sh2 = (false, g'') →
      g''.totalHands = g'.totalHands ∧
      g'.totalHands + g'.players.length
        = g.totalHands + g.cutted_count) := by
  have hinv := reached_dvd g hg
  refine ⟨hinv, ?_, ?_⟩
  · intro h0
    rw [h0, Nat.add_zero] at hinv
    exact hinv
  · intro sh sh2 a b c g' g'' hsh hsh2 h h2
    exact Game.round_conserves g g' g'' sh sh2 a b c hinv hsh hsh2 h h2

/-- Witness for C7 at the concrete game `cg4`, reachable via `Game::new`
from the four-player lobby. -/
theorem claim_C7_witness :
    cg4.players.length ∣ cg4.totalHands + cg4.cutted_count ∧
    (cg4.cutted_count = 0 → cg4.players.length ∣ cg4.totalHands) := by
  have hr : Reached cg4 := Reached.init "L" ws4 id id 0 cg4 (by decide)
    (fun l => List.Perm.refl l) (fun l => List.Perm.refl l) (by decide)
  exact ⟨(claim_C7 cg4 hr).1, (claim_C7 cg4 hr).2.1⟩

/-- C8: `Lobby::start` (which calls `Game::new` with no re-validation of
`may_start` beyond what the team table enforces) produces a game exactly
when the player count lies in 4..=8; outside that range the `unreachable!`
branch of the team table panics (`none`), and inside it no panic occurs. -/
theorem claim_C8 (l : Lobby) (shT : List Team → List Team)
    (shC : List Cable → List Cable) (idx : Nat)
    (hT : ∀ ts, (shT ts).Perm ts) :
    (l.start shT shC idx).isSome ↔
      4 ≤ l.players.length ∧ l.players.length ≤ 8 := by
  unfold Lobby.start
  have hws : (l.players.map Prod.snd).length = l.players.length :=
    List.length_map _ _
  constructor
  · intro hs
    obtain ⟨g, hgs⟩ := Option.isSome_iff_exists.mp hs
    obtain ⟨teams0, hteams, -, -⟩ := Game.new_some_inv _ _ _ _ _ _ hgs
    have hx := (Game.teamsFor_isSome_iff
      (l.players.map Prod.snd).length).mp (by rw [hteams]; rfl)
    rw [hws] at hx
    exact hx
  · intro hb
    obtain ⟨h4, h8⟩ := hb
    have hts : (Game.teamsFor (l.players.map Prod.snd).length).isSome := by
      rw [Game.teamsFor_isSome_iff]
      omega
    obtain ⟨ts, hts'⟩ := Option.isSome_iff_exists.mp hts
    obtain ⟨hrange, hsp⟩ := Game.teamsFor_spec _ ts hts'
    have htl : (l.players.map Prod.snd).length ≤ ts.length := by
      by_cases h5 : (l.players.map Prod.snd).length ≤ 5
      · have := (hsp.1 h5).2.2
        omega
      by_cases h6 : (l.players.map Prod.snd).length = 6
      · have := (hsp.2.1 h6).2.2
        omega
      · have := (hsp.2.2 (by omega)).2.2
        omega
    have hne0 : ¬(Game.initPlayers (l.players.map Prod.snd)
        (shT ts)).length = 0 := by
      rw [Game.initPlayers_length, (hT ts).length_eq]
      omega
    unfold Game.new
    rw [hts']
    simp only []
    rw [if_neg hne0]
    rfl

/-- Witness for C8 at the ready four-player lobby `l4`. -/
theorem claim_C8_witness :
    ((l4.start id id 0).isSome ↔
      4 ≤ l4.players.length ∧ l4.players.length ≤ 8) ∧
    (l4.start id id 0).isSome :=
  ⟨claim_C8 l4 id id 0 (fun ts => List.Perm.refl ts),
   (claim_C8 l4 id id 0 (fun ts => List.Perm.refl ts)).mpr (by decide)⟩

/-- C9: past the two typed-error checks, `Game::cut` panics (unwrap) rather
than returning a typed error when the target id is absent from the player
map or when the target's hand is empty; when the target is present with a
non-empty hand neither panic is reachable and the cut returns `Ok`; and the
`/game/cut` route hands a request to `Game::cut` only after checking that
the target id is a member of the game. -/
theorem claim_C9 (g : Game) (sh : List Cable → List Cable) (a b : Nat)
    (hsh : ∀ l, (sh l).Perm l) (ha : a = g.wire_cutters) (hb : b ≠ a) :
    (List.lookup b g.players = none → g.cut sh a b = CutResult.panic) ∧
    (∀ p, List.lookup b g.players = some p → p.cables = [] →
      g.cut sh a b = CutResult.panic) ∧
    (∀ p, List.lookup b g.players = some p → p.cables ≠ [] →
      ∃ c o g', g.cut sh a b = CutResult.ok c o g') ∧
    (∀ r, route_cut g sh a b = RouteCutResult.fromCut r →
      (List.lookup b g.players).isSome) := by
  subst ha
  refine ⟨?_, ?_, ?_, ?_⟩
  · intro hnone
    cases hres : g.cut sh g.wire_cutters b with
    | err e g2 =>
        obtain ⟨-, hor⟩ := Game.cut_err_inv g g2 sh _ b e hres
        rcases hor with ⟨-, hne'⟩ | ⟨-, -, hba⟩
        · exact absurd rfl hne'
        · exact absurd hba hb
    | panic => rfl
    | ok c o g' =>
        obtain ⟨-, -, p, s, hp, -, -, -, -, -⟩ :=
          Game.cut_ok_inv g sh _ b c o g' hres
        rw [hnone] at hp
        cases hp
  · intro p hp hemp
    cases hres : g.cut sh g.wire_cutters b with
    | err e g2 =>
        obtain ⟨-, hor⟩ := Game.cut_err_inv g g2 sh _ b e hres
        rcases hor with ⟨-, hne'⟩ | ⟨-, -, hba⟩
        · exact absurd rfl hne'
        · exact absurd hba hb
    | panic => rfl
    | ok c o g' =>
        obtain ⟨-, -, q, s, hq, hs, -, -, -, -⟩ :=
          Game.cut_ok_inv g sh _ b c o g' hres
        rw [hp] at hq
        injection hq with hq
        subst hq
        rw [hemp] at hs
        have hnil : sh [] = [] := (hsh []).eq_nil
        rw [hnil] at hs
        exact absurd hs.symm (by simp)
  · intro p hp hne
    exact Game.cut_succeeds g sh b p hsh hb hp hne
  · intro r hr
    unfold route_cut at hr
    by_cases hc1 : (List.lookup g.wire_cutters g.players).isNone
    · rw [if_pos hc1] at hr
      cases hr
    rw [if_neg hc1] at hr
    by_cases hc2 : (List.lookup b g.players).isNone
    · rw [if_pos hc2] at hr
      cases hr
    rw [if_neg hc2] at hr
    cases hl : List.lookup b g.players with
    | none =>
        rw [hl] at hc2
        exact absurd rfl hc2
    | some q => rfl

/-- Witness for C9 at `cg4` (holder 0, target 1: present with a non-empty
hand, so the cut returns `Ok`). -/
theorem claim_C9_witness :
    (List.lookup 1 cg4.players = none → cg4.cut id 0 1 = CutResult.panic) ∧
    (∀ p, List.lookup 1 cg4.players = some p → p.cables = [] →
      cg4.cut id 0 1 = CutResult.panic) ∧
    (∀ p, List.lookup 1 cg4.players = some p → p.cables ≠ [] →
      ∃ c o g', cg4.cut id 0 1 = CutResult.ok c o g') ∧
    (∀ r, route_cut cg4 id 0 1 = RouteCutResult.fromCut r →
      (List.lookup 1 cg4.players).isSome) :=
  claim_C9 cg4 id 0 1 (fun l => List.Perm.refl l) (by decide) (by decide)

/-- C10: `Lobby::add_player` checks capacity before the duplicate-id check,
so on a full lobby it returns `GameFull` no matter whether the joining id is
already present. -/
theorem claim_C10 (l : Lobby) (p : WaitingPlayer)
    (h : 8 ≤ l.players.length) :
    l.add_player p = Except.error JoinErr.gameFull := by
  unfold Lobby.add_player
  rw [if_pos h]

/-- Witness for C10: the full lobby `l8` with a joining id (0) that is also
already present — both failure reasons hold at once and the result is
`GameFull`, not `AlreadyConnected`. -/
theorem claim_C10_witness :
    8 ≤ l8.players.length ∧ (List.lookup 0 l8.players).isSome ∧
    l8.add_player ⟨0, "q", false⟩ = Except.error JoinErr.gameFull :=
  ⟨by decide, by decide, claim_C10 l8 ⟨0, "q", false⟩ (by decide)⟩
